import Mathlib

/-
Verification of the version-history resolution engine of api-kit
(src/api-kit/src/metadata.rs), with the URL-constructor collaborator
(src/api-kit/src/url.rs, absent from the sources) modelled from the spec.
Versions are an arbitrary linearly ordered type, mirroring the Rust bound
`V: Ord`.
-/

namespace ApiKit

/-- One concrete shape of an endpoint (struct `Metadata` in metadata.rs).
The HTTP method is a plain string, the auth list holds the scheme
identifier strings of the `dyn AuthScheme` trait objects. -/
structure Metadata where
  method : String
  auth : List String
  path : String
  headers : List (String × String)
  deriving DecidableEq, Repr

/-- Error enum `IntoHttpError` of error.rs, restricted to the variants the
resolution engine can produce. -/
inductive UrlError where
  | Message (s : String)
  | TopLevel
  | InvalidEndpoint
  | ValueNotSupported
  | KeyNotFound (k : String)
  | UnfilledField (f : String)
  deriving DecidableEq, Repr

inductive IntoHttpError where
  | NoUnstablePath
  | EndpointRemoved
  | MissingAuth
  | Url (e : UrlError)
  deriving DecidableEq, Repr

/-- Struct `VersionHistory` of metadata.rs. -/
structure VersionHistory (V : Type) where
  unstable_paths : List Metadata
  stable_paths : List (V × Metadata)
  deprecated : Option V
  removed : Option V

/-- Enum `VersioningDecision` of metadata.rs; the `Stable` fields appear in
source order: any_deprecated, all_deprecated, any_removed. -/
inductive VersioningDecision where
  | Unstable
  | Stable (any_deprecated all_deprecated any_removed : Bool)
  | Removed
  deriving DecidableEq, Repr

/-- Rust `Option::is_some_and`. -/
def isSomeAnd {α : Type} (o : Option α) (p : α → Bool) : Bool :=
  match o with
  | some a => p a
  | none => false

variable {V : Type} [LinearOrder V]

/-- The closure `greater_or_equal_any` of `versioning_decision_for`:
`versions.iter().any(|v| v >= version)`. -/
def greater_or_equal_any (versions : List V) (version : V) : Bool :=
  versions.any (fun v => version ≤ v)

/-- The closure `greater_or_equal_all` of `versioning_decision_for`:
`versions.iter().all(|v| v >= version)`. -/
def greater_or_equal_all (versions : List V) (version : V) : Bool :=
  versions.all (fun v => version ≤ v)

/-- `VersionHistory::added_in`: version of the first stable entry. -/
def VersionHistory.added_in (h : VersionHistory V) : Option V :=
  h.stable_paths.head?.map Prod.fst

/-- `VersionHistory::versioning_decision_for` of metadata.rs, lines 101-123. -/
def VersionHistory.versioning_decision_for (h : VersionHistory V)
    (versions : List V) : VersioningDecision :=
  if isSomeAnd h.removed (greater_or_equal_all versions) then
    VersioningDecision.Removed
  else if isSomeAnd h.added_in (greater_or_equal_any versions) then
    let all_deprecated := isSomeAnd h.deprecated (greater_or_equal_all versions)
    VersioningDecision.Stable
      (all_deprecated || isSomeAnd h.deprecated (greater_or_equal_any versions))
      all_deprecated
      (isSomeAnd h.removed (greater_or_equal_any versions))
  else
    VersioningDecision.Unstable

/-- The loop of `VersionHistory::stable_endpoint_for`: scan `stable_paths`
in reverse and return the first entry any candidate version reaches. -/
def VersionHistory.stable_entry_for (h : VersionHistory V)
    (versions : List V) : Option (V × Metadata) :=
  h.stable_paths.reverse.find? (fun p => greater_or_equal_any versions p.1)

/-- `VersionHistory::stable_endpoint_for` of metadata.rs, lines 133-143. -/
def VersionHistory.stable_endpoint_for (h : VersionHistory V)
    (versions : List V) : Option Metadata :=
  (h.stable_entry_for versions).map Prod.snd

/-- `VersionHistory::unstable`: the last unstable metadata, if any. -/
def VersionHistory.unstable (h : VersionHistory V) : Option Metadata :=
  h.unstable_paths.getLast?

/-- Outcome of `VersionHistory::select_endpoint`: a Rust function returning
`Result` that can also panic through `.expect(..)`; the `panicked`
constructor marks that panic. -/
inductive SelectResult where
  | ok (m : Metadata)
  | err (e : IntoHttpError)
  | panicked
  deriving DecidableEq, Repr

/-- `VersionHistory::select_endpoint` of metadata.rs, lines 189-197. -/
def VersionHistory.select_endpoint (h : VersionHistory V)
    (versions : List V) : SelectResult :=
  match h.versioning_decision_for versions with
  | VersioningDecision.Unstable =>
    match h.unstable with
    | some m => SelectResult.ok m
    | none => SelectResult.err IntoHttpError.NoUnstablePath
  | VersioningDecision.Stable _ _ _ =>
    match h.stable_endpoint_for versions with
    | some m => SelectResult.ok m
    | none => SelectResult.panicked
  | VersioningDecision.Removed => SelectResult.err IntoHttpError.EndpointRemoved

/-- The Removed condition of the claims, spelled propositionally:
`removed` is set and every candidate version reaches it. -/
def RemovedCond (h : VersionHistory V) (versions : List V) : Prop :=
  ∃ r, h.removed = some r ∧ ∀ v ∈ versions, r ≤ v

/-- The Stable condition of the claims, spelled propositionally: there is a
first stable entry and some candidate version reaches its version. -/
def StableCond (h : VersionHistory V) (versions : List V) : Prop :=
  ∃ p rest, h.stable_paths = p :: rest ∧ ∃ v ∈ versions, p.1 ≤ v

lemma isSomeAnd_eq_true {α : Type} (o : Option α) (p : α → Bool) :
    isSomeAnd o p = true ↔ ∃ x, o = some x ∧ p x = true := by
  cases o <;> simp [isSomeAnd]

lemma greater_or_equal_any_eq_true (versions : List V) (w : V) :
    greater_or_equal_any versions w = true ↔ ∃ v ∈ versions, w ≤ v := by
  simp [greater_or_equal_any]

lemma greater_or_equal_all_eq_true (versions : List V) (w : V) :
    greater_or_equal_all versions w = true ↔ ∀ v ∈ versions, w ≤ v := by
  simp [greater_or_equal_all]

lemma removed_check_iff (h : VersionHistory V) (versions : List V) :
    isSomeAnd h.removed (greater_or_equal_all versions) = true ↔
      RemovedCond h versions := by
  rw [isSomeAnd_eq_true]
  unfold RemovedCond
  constructor
  · rintro ⟨r, hr, hall⟩
    exact ⟨r, hr, (greater_or_equal_all_eq_true versions r).1 hall⟩
  · rintro ⟨r, hr, hall⟩
    exact ⟨r, hr, (greater_or_equal_all_eq_true versions r).2 hall⟩

lemma stable_check_iff (h : VersionHistory V) (versions : List V) :
    isSomeAnd h.added_in (greater_or_equal_any versions) = true ↔
      StableCond h versions := by
  rw [isSomeAnd_eq_true]
  unfold StableCond VersionHistory.added_in
  cases hps : h.stable_paths with
  | nil => simp
  | cons p rest =>
    constructor
    · rintro ⟨x, hx, hany⟩
      have hx2 : p.1 = x := by simpa using hx
      refine ⟨p, rest, rfl, (greater_or_equal_any_eq_true versions p.1).1 ?_⟩
      rw [hx2]
      exact hany
    · rintro ⟨q, rest2, hq, hv⟩
      rcases List.cons.inj hq with ⟨rfl, -⟩
      exact ⟨p.1, by simp, (greater_or_equal_any_eq_true versions p.1).2 hv⟩

/-- Claim C1: versioning_decision_for classifies with this precedence: it
returns Removed exactly when removed is set and every candidate version
reaches it; otherwise it returns Stable (with some flags) exactly when
there is a first stable entry whose version some candidate reaches;
otherwise it returns Unstable. -/
theorem claim1_decision_precedence (h : VersionHistory V) (versions : List V) :
    (h.versioning_decision_for versions = VersioningDecision.Removed ↔
      RemovedCond h versions) ∧
    (¬ RemovedCond h versions →
      ((∃ a b c, h.versioning_decision_for versions =
          VersioningDecision.Stable a b c) ↔ StableCond h versions)) ∧
    (¬ RemovedCond h versions → ¬ StableCond h versions →
      h.versioning_decision_for versions = VersioningDecision.Unstable) := by
  by_cases hR : RemovedCond h versions
  · have hb : isSomeAnd h.removed (greater_or_equal_all versions) = true :=
      (removed_check_iff h versions).2 hR
    refine ⟨?_, fun hnr => absurd hR hnr, fun hnr => absurd hR hnr⟩
    rw [iff_true_right hR]
    simp [VersionHistory.versioning_decision_for, hb]
  · have hb : isSomeAnd h.removed (greater_or_equal_all versions) = false := by
      rw [← Bool.not_eq_true]
      exact fun hc => hR ((removed_check_iff h versions).1 hc)
    by_cases hS : StableCond h versions
    · have hs : isSomeAnd h.added_in (greater_or_equal_any versions) = true :=
        (stable_check_iff h versions).2 hS
      refine ⟨?_, ?_, fun _ hns => absurd hS hns⟩
      · constructor
        · intro hcon
          simp [VersionHistory.versioning_decision_for, hb, hs] at hcon
        · intro hc
          exact absurd hc hR
      · intro hnr
        have hdec : h.versioning_decision_for versions =
            VersioningDecision.Stable
              (isSomeAnd h.deprecated (greater_or_equal_all versions) ||
                isSomeAnd h.deprecated (greater_or_equal_any versions))
              (isSomeAnd h.deprecated (greater_or_equal_all versions))
              (isSomeAnd h.removed (greater_or_equal_any versions)) := by
          simp [VersionHistory.versioning_decision_for, hb, hs]
        exact iff_of_true ⟨_, _, _, hdec⟩ hS
    · have hs : isSomeAnd h.added_in (greater_or_equal_any versions) = false := by
        rw [← Bool.not_eq_true]
        exact fun hc => hS ((stable_check_iff h versions).1 hc)
      refine ⟨?_, ?_, ?_⟩
      · constructor
        · intro hcon
          simp [VersionHistory.versioning_decision_for, hb, hs] at hcon
        · intro hc
          exact absurd hc hR
      · intro hnr
        refine iff_of_false ?_ hS
        rintro ⟨a, b, c, hcon⟩
        simp [VersionHistory.versioning_decision_for, hb, hs] at hcon
      · intro hnr hns
        simp [VersionHistory.versioning_decision_for, hb, hs]

/-- Witness for claim C1 at a concrete history: no removal marker, one
stable entry at version 2, candidate slice [1]. -/
theorem claim1_witness :
    (VersionHistory.mk [] [((2 : ℕ), Metadata.mk "GET" [] "/v1/endpoint" [])]
        none none).versioning_decision_for [1] = VersioningDecision.Unstable := by
  refine (claim1_decision_precedence _ [1]).2.2 ?_ ?_
  · rintro ⟨r, hr, -⟩
    simp at hr
  · rintro ⟨p, rest, hps, v, hv, hle⟩
    rcases List.cons.inj hps with ⟨rfl, -⟩
    simp only [List.mem_singleton] at hv
    subst hv
    simp at hle

lemma isSomeAnd_all_iff (o : Option V) (versions : List V) :
    isSomeAnd o (greater_or_equal_all versions) = true ↔
      ∃ x, o = some x ∧ ∀ v ∈ versions, x ≤ v := by
  rw [isSomeAnd_eq_true]
  simp only [greater_or_equal_all_eq_true]

lemma isSomeAnd_any_iff (o : Option V) (versions : List V) :
    isSomeAnd o (greater_or_equal_any versions) = true ↔
      ∃ x, o = some x ∧ ∃ v ∈ versions, x ≤ v := by
  rw [isSomeAnd_eq_true]
  simp only [greater_or_equal_any_eq_true]

/-- Claim C2: when the decision is Stable, the three flags are exactly the
all-deprecated, any-deprecated and any-removed conditions of the spec. -/
theorem claim2_stable_flags (h : VersionHistory V) (versions : List V)
    (a b c : Bool)
    (hd : h.versioning_decision_for versions = VersioningDecision.Stable a b c) :
    (b = true ↔ ∃ d, h.deprecated = some d ∧ ∀ v ∈ versions, d ≤ v) ∧
    (a = true ↔
      (b = true ∨ ∃ d, h.deprecated = some d ∧ ∃ v ∈ versions, d ≤ v)) ∧
    (c = true ↔ ∃ r, h.removed = some r ∧ ∃ v ∈ versions, r ≤ v) := by
  rcases hrem : isSomeAnd h.removed (greater_or_equal_all versions) with - | -
  · rcases hst : isSomeAnd h.added_in (greater_or_equal_any versions) with - | -
    · simp [VersionHistory.versioning_decision_for, hrem, hst] at hd
    · have hd2 : VersioningDecision.Stable
          (isSomeAnd h.deprecated (greater_or_equal_all versions) ||
            isSomeAnd h.deprecated (greater_or_equal_any versions))
          (isSomeAnd h.deprecated (greater_or_equal_all versions))
          (isSomeAnd h.removed (greater_or_equal_any versions)) =
          VersioningDecision.Stable a b c := by
        rw [← hd]
        simp [VersionHistory.versioning_decision_for, hrem, hst]
      injection hd2 with h1 h2 h3
      subst h1
      subst h2
      subst h3
      refine ⟨isSomeAnd_all_iff h.deprecated versions, ?_,
        isSomeAnd_any_iff h.removed versions⟩
      rw [Bool.or_eq_true]
      exact or_congr Iff.rfl (isSomeAnd_any_iff h.deprecated versions)
  · simp [VersionHistory.versioning_decision_for, hrem] at hd

/-- A GET endpoint shape with no auth and no extra headers, for witnesses. -/
def mGET (p : String) : Metadata :=
  Metadata.mk "GET" [] p []

/-- The round-trip history of the spec: stable entries at versions 1 and 2,
deprecated at 2, removed at 3. -/
def histRT : VersionHistory ℕ :=
  VersionHistory.mk [] [(1, mGET "/v1/endpoint"), (2, mGET "/v2/endpoint")]
    (some 2) (some 3)

/-- An unstable-only history, for witnesses. -/
def histU : VersionHistory ℕ :=
  VersionHistory.mk [mGET "/v1alpha1/endpoint"] [] none none

/-- Witness for claim C2: the round-trip history of the spec with
candidates [1, 2, 3] decides Stable with flags (true, false, true). -/
theorem claim2_witness :
    histRT.versioning_decision_for [1, 2, 3] =
        VersioningDecision.Stable true false true ∧
      ((false : Bool) = true ↔
        ∃ d, histRT.deprecated = some d ∧ ∀ v ∈ [1, 2, 3], d ≤ v) :=
  ⟨by decide, (claim2_stable_flags histRT [1, 2, 3] true false true (by decide)).1⟩

/-- Claim C3: select_endpoint returns the last unstable variant when the
decision is Unstable and one exists, fails with NoUnstablePath when the
decision is Unstable and none exists, returns the stable_endpoint_for
result when the decision is Stable, and fails with EndpointRemoved when
the decision is Removed. -/
theorem claim3_select_endpoint_cases (h : VersionHistory V) (versions : List V) :
    (h.versioning_decision_for versions = VersioningDecision.Unstable →
      h.unstable_paths = [] →
      h.select_endpoint versions = SelectResult.err IntoHttpError.NoUnstablePath) ∧
    (h.versioning_decision_for versions = VersioningDecision.Unstable →
      ∀ m, h.unstable_paths.getLast? = some m →
        h.select_endpoint versions = SelectResult.ok m) ∧
    (∀ a b c, h.versioning_decision_for versions = VersioningDecision.Stable a b c →
      ∀ m, h.stable_endpoint_for versions = some m →
        h.select_endpoint versions = SelectResult.ok m) ∧
    (h.versioning_decision_for versions = VersioningDecision.Removed →
      h.select_endpoint versions = SelectResult.err IntoHttpError.EndpointRemoved) := by
  refine ⟨?_, ?_, ?_, ?_⟩
  · intro hd he
    simp [VersionHistory.select_endpoint, hd, VersionHistory.unstable, he]
  · intro hd m hm
    simp [VersionHistory.select_endpoint, hd, VersionHistory.unstable, hm]
  · intro a b c hd m hm
    simp [VersionHistory.select_endpoint, hd, hm]
  · intro hd
    simp [VersionHistory.select_endpoint, hd]

/-- Witness for claim C3: the unstable-only history with candidates [1]
selects its single unstable variant. -/
theorem claim3_witness :
    histU.select_endpoint [1] = SelectResult.ok (mGET "/v1alpha1/endpoint") :=
  (claim3_select_endpoint_cases histU [1]).2.1 (by decide) _ (by decide)

lemma stable_entry_exists_of_decision (h : VersionHistory V) (versions : List V)
    (a b c : Bool)
    (hd : h.versioning_decision_for versions = VersioningDecision.Stable a b c) :
    ∃ m, h.stable_endpoint_for versions = some m := by
  have hs : isSomeAnd h.added_in (greater_or_equal_any versions) = true := by
    by_contra hcon
    rw [Bool.not_eq_true] at hcon
    rcases hrem : isSomeAnd h.removed (greater_or_equal_all versions) with - | - <;>
      simp [VersionHistory.versioning_decision_for, hrem, hcon] at hd
  rcases (stable_check_iff h versions).1 hs with ⟨p, rest, hps, hv⟩
  have hmem : p ∈ h.stable_paths.reverse := by
    rw [List.mem_reverse, hps]
    exact List.mem_cons_self _ _
  have hpred : greater_or_equal_any versions p.1 = true :=
    (greater_or_equal_any_eq_true versions p.1).2 hv
  rcases hfind : h.stable_paths.reverse.find?
      (fun q => greater_or_equal_any versions q.1) with - | q
  · exact absurd hpred (List.find?_eq_none.1 hfind p hmem)
  · exact ⟨q.2, by
      simp [VersionHistory.stable_endpoint_for, VersionHistory.stable_entry_for,
        hfind]⟩

/-- Claim C4: a Stable decision guarantees stable_endpoint_for returns some
metadata, so the expect assertion in the Stable branch of select_endpoint
can never fire, on any history, sorted or not. -/
theorem claim4_stable_never_panics (h : VersionHistory V) (versions : List V) :
    (∀ a b c, h.versioning_decision_for versions = VersioningDecision.Stable a b c →
      ∃ m, h.stable_endpoint_for versions = some m) ∧
    h.select_endpoint versions ≠ SelectResult.panicked := by
  constructor
  · exact fun a b c hd => stable_entry_exists_of_decision h versions a b c hd
  · intro hcon
    rcases hd : h.versioning_decision_for versions with - | ⟨a, b, c⟩ | -
    · rcases hu : h.unstable with - | m <;>
        simp [VersionHistory.select_endpoint, hd, hu] at hcon
    · obtain ⟨m, hm⟩ := stable_entry_exists_of_decision h versions a b c hd
      simp [VersionHistory.select_endpoint, hd, hm] at hcon
    · simp [VersionHistory.select_endpoint, hd] at hcon

/-- Witness for claim C4: the round-trip history with candidates [1, 2, 3]
decides Stable, and indeed a stable endpoint exists. -/
theorem claim4_witness :
    histRT.versioning_decision_for [1, 2, 3] =
        VersioningDecision.Stable true false true ∧
      (∃ m, histRT.stable_endpoint_for [1, 2, 3] = some m) ∧
      histRT.select_endpoint [1, 2, 3] ≠ SelectResult.panicked :=
  ⟨by decide,
    (claim4_stable_never_panics histRT [1, 2, 3]).1 true false true (by decide),
    (claim4_stable_never_panics histRT [1, 2, 3]).2⟩

lemma greater_or_equal_any_eq_false (versions : List V) (w : V) :
    greater_or_equal_any versions w = false ↔ ∀ v ∈ versions, ¬ w ≤ v := by
  rw [← Bool.not_eq_true, greater_or_equal_any_eq_true]
  simp

lemma find?_eq_some_split {α : Type} (p : α → Bool) (l : List α) (x : α)
    (h : l.find? p = some x) :
    ∃ l1 l2, l = l1 ++ x :: l2 ∧ (∀ y ∈ l1, p y = false) ∧ p x = true := by
  induction l with
  | nil => simp at h
  | cons a t ih =>
    rcases hpa : p a with - | -
    · rw [List.find?_cons_of_neg] at h
      · obtain ⟨l1, l2, heq, h1, h2⟩ := ih h
        refine ⟨a :: l1, l2, by rw [heq, List.cons_append], ?_, h2⟩
        intro y hy
        rcases List.mem_cons.1 hy with rfl | hy2
        · exact hpa
        · exact h1 y hy2
      · simp [hpa]
    · rw [List.find?_cons_of_pos] at h
      · injection h with h
        subst h
        exact ⟨[], t, rfl, by simp, hpa⟩
      · exact hpa

lemma find?_append_of_false {α : Type} (p : α → Bool) (l1 l2 : List α)
    (h1 : ∀ y ∈ l1, p y = false) :
    (l1 ++ l2).find? p = l2.find? p := by
  induction l1 with
  | nil => rfl
  | cons a t ih =>
    rw [List.cons_append, List.find?_cons_of_neg]
    · exact ih fun y hy => h1 y (List.mem_cons_of_mem a hy)
    · simp [h1 a (List.mem_cons_self a t)]

/-- Claim C5: stable_endpoint_for returns the metadata of the last entry of
stable_paths whose version some candidate reaches, and none when no entry
qualifies. -/
theorem claim5_stable_endpoint_last_match (h : VersionHistory V)
    (versions : List V) :
    (h.stable_endpoint_for versions = none ↔
      ∀ p ∈ h.stable_paths, ∀ v ∈ versions, ¬ p.1 ≤ v) ∧
    (∀ m, h.stable_endpoint_for versions = some m ↔
      ∃ l1 p l2, h.stable_paths = l1 ++ p :: l2 ∧ p.2 = m ∧
        (∃ v ∈ versions, p.1 ≤ v) ∧
        ∀ q ∈ l2, ∀ v ∈ versions, ¬ q.1 ≤ v) := by
  constructor
  · rw [VersionHistory.stable_endpoint_for, Option.map_eq_none',
      VersionHistory.stable_entry_for, List.find?_eq_none]
    constructor
    · intro hall p hp v hv hle
      exact hall p (List.mem_reverse.2 hp)
        ((greater_or_equal_any_eq_true versions p.1).2 ⟨v, hv, hle⟩)
    · intro hall x hx hpred
      rcases (greater_or_equal_any_eq_true versions x.1).1 hpred with ⟨v, hv, hle⟩
      exact hall x (List.mem_reverse.1 hx) v hv hle
  · intro m
    constructor
    · intro hm
      rcases hx : h.stable_paths.reverse.find?
          (fun q => greater_or_equal_any versions q.1) with - | x
      · simp [VersionHistory.stable_endpoint_for,
          VersionHistory.stable_entry_for, hx] at hm
      · simp only [VersionHistory.stable_endpoint_for,
          VersionHistory.stable_entry_for, hx, Option.map_some',
          Option.some.injEq] at hm
        obtain ⟨r1, r2, hrev, hfalse, hpred⟩ := find?_eq_some_split _ _ _ hx
        have hsp : h.stable_paths = r2.reverse ++ x :: r1.reverse := by
          have h2 := congrArg List.reverse hrev
          simpa [List.reverse_append] using h2
        refine ⟨r2.reverse, x, r1.reverse, hsp, hm, ?_, ?_⟩
        · exact (greater_or_equal_any_eq_true versions x.1).1 hpred
        · intro q hq v hv hle
          have hqf : greater_or_equal_any versions q.1 = false :=
            hfalse q (List.mem_reverse.1 hq)
          exact (greater_or_equal_any_eq_false versions q.1).1 hqf v hv hle
    · rintro ⟨l1, p, l2, hsplit, hpm, hpred, hfail⟩
      have hrev : h.stable_paths.reverse = l2.reverse ++ p :: l1.reverse := by
        rw [hsplit]
        simp [List.reverse_append]
      rw [VersionHistory.stable_endpoint_for, VersionHistory.stable_entry_for,
        hrev, find?_append_of_false, List.find?_cons_of_pos]
      · simp [hpm]
      · exact (greater_or_equal_any_eq_true versions p.1).2 hpred
      · intro y hy
        exact (greater_or_equal_any_eq_false versions y.1).2
          (hfail y (List.mem_reverse.1 hy))

/-- Witness for claim C5: with candidate [1] the round-trip history selects
the entry at version 1, the later entry at version 2 not qualifying. -/
theorem claim5_witness :
    histRT.stable_endpoint_for [1] = some (mGET "/v1/endpoint") :=
  ((claim5_stable_endpoint_last_match histRT [1]).2 (mGET "/v1/endpoint")).mpr
    ⟨[], (1, mGET "/v1/endpoint"), [(2, mGET "/v2/endpoint")], rfl, rfl,
      ⟨1, by simp, le_refl 1⟩, by decide⟩

/-- Claim C6: on a history whose stable entries are sorted ascending by
version, a stable entry at version v together with a candidate reaching v
forces a Stable decision whenever the Removed condition fails. -/
theorem claim6_sorted_entry_stable (h : VersionHistory V)
    (hsort : h.stable_paths.Pairwise (fun p q => p.1 ≤ q.1))
    (versions : List V) (v : V) (m : Metadata)
    (hmem : (v, m) ∈ h.stable_paths)
    (c : V) (hc : c ∈ versions) (hvc : v ≤ c)
    (hnr : ¬ RemovedCond h versions) :
    ∃ a b r, h.versioning_decision_for versions =
      VersioningDecision.Stable a b r := by
  have hb : isSomeAnd h.removed (greater_or_equal_all versions) = false := by
    rw [← Bool.not_eq_true]
    exact fun hcon => hnr ((removed_check_iff h versions).1 hcon)
  have hS : StableCond h versions := by
    rcases hps : h.stable_paths with - | ⟨p, rest⟩
    · rw [hps] at hmem
      simp at hmem
    · refine ⟨p, rest, hps, c, hc, le_trans ?_ hvc⟩
      rw [hps] at hmem hsort
      rcases List.pairwise_cons.1 hsort with ⟨hhead, -⟩
      rcases List.mem_cons.1 hmem with heq | hmem2
      · rw [← heq]
      · exact hhead _ hmem2
  have hs : isSomeAnd h.added_in (greater_or_equal_any versions) = true :=
    (stable_check_iff h versions).2 hS
  exact ⟨isSomeAnd h.deprecated (greater_or_equal_all versions) ||
      isSomeAnd h.deprecated (greater_or_equal_any versions),
    isSomeAnd h.deprecated (greater_or_equal_all versions),
    isSomeAnd h.removed (greater_or_equal_any versions),
    by simp [VersionHistory.versioning_decision_for, hb, hs]⟩

/-- Witness for claim C6: the round-trip history has a stable entry at
version 2, candidate 3 reaches it, and the Removed condition fails on
[1, 2, 3]. -/
theorem claim6_witness :
    ∃ a b r, histRT.versioning_decision_for [1, 2, 3] =
      VersioningDecision.Stable a b r :=
  claim6_sorted_entry_stable histRT (by decide) [1, 2, 3] 2
    (mGET "/v2/endpoint") (by decide) 3 (by decide) (by decide)
    (by simp [RemovedCond, histRT])

lemma find?_top_of_descending (versions2 : List V) (l : List (V × Metadata))
    (hdesc : l.Pairwise (fun p q => q.1 ≤ p.1))
    (x y : V × Metadata)
    (hfind : l.find? (fun q => greater_or_equal_any versions2 q.1) = some x)
    (hy : y ∈ l) (hpy : greater_or_equal_any versions2 y.1 = true) :
    y.1 ≤ x.1 := by
  induction l with
  | nil => simp at hfind
  | cons a t ih =>
    rcases List.pairwise_cons.1 hdesc with ⟨hhead, htail⟩
    rcases hpa : greater_or_equal_any versions2 a.1 with - | -
    · rw [List.find?_cons_of_neg] at hfind
      · rcases List.mem_cons.1 hy with rfl | hy2
        · rw [hpa] at hpy
          exact absurd hpy (by simp)
        · exact ih htail hfind hy2
      · simp [hpa]
    · rw [List.find?_cons_of_pos] at hfind
      · injection hfind with hfind
        subst hfind
        rcases List.mem_cons.1 hy with rfl | hy2
        · exact le_refl _
        · exact hhead y hy2
      · exact hpa

/-- Claim C7: on a sorted history, enlarging the candidate set keeps
success of the reverse scan and never lowers the selected version. -/
theorem claim7_stable_entry_monotonic (h : VersionHistory V)
    (hsort : h.stable_paths.Pairwise (fun p q => p.1 ≤ q.1))
    (S S2 : List V) (hsub : ∀ v ∈ S, v ∈ S2)
    (p1 : V × Metadata) (h1 : h.stable_entry_for S = some p1) :
    ∃ p2, h.stable_entry_for S2 = some p2 ∧ p1.1 ≤ p2.1 ∧
      h.stable_endpoint_for S2 = some p2.2 := by
  have hdesc : h.stable_paths.reverse.Pairwise (fun p q => q.1 ≤ p.1) :=
    List.pairwise_reverse.2 hsort
  have h1f : h.stable_paths.reverse.find?
      (fun q => greater_or_equal_any S q.1) = some p1 := h1
  have hp1mem : p1 ∈ h.stable_paths.reverse := List.mem_of_find?_eq_some h1f
  have hp1pred : greater_or_equal_any S p1.1 = true := by
    have := List.find?_some h1f
    simpa using this
  have hp1pred2 : greater_or_equal_any S2 p1.1 = true := by
    rcases (greater_or_equal_any_eq_true S p1.1).1 hp1pred with ⟨v, hv, hle⟩
    exact (greater_or_equal_any_eq_true S2 p1.1).2 ⟨v, hsub v hv, hle⟩
  rcases hf2 : h.stable_paths.reverse.find?
      (fun q => greater_or_equal_any S2 q.1) with - | p2
  · exact absurd hp1pred2 (List.find?_eq_none.1 hf2 p1 hp1mem)
  · refine ⟨p2, hf2, ?_, ?_⟩
    · exact find?_top_of_descending S2 _ hdesc p2 p1 hf2 hp1mem hp1pred2
    · simp [VersionHistory.stable_endpoint_for, VersionHistory.stable_entry_for,
        hf2]

/-- Witness for claim C7: enlarging [1] to [1, 3] moves the selection of
the round-trip history from the version-1 entry to a no-smaller one. -/
theorem claim7_witness :
    ∃ p2, histRT.stable_entry_for [1, 3] = some p2 ∧
      ((1 : ℕ), mGET "/v1/endpoint").1 ≤ p2.1 ∧
      histRT.stable_endpoint_for [1, 3] = some p2.2 :=
  claim7_stable_entry_monotonic histRT (by decide) [1] [1, 3] (by decide)
    ((1 : ℕ), mGET "/v1/endpoint") (by decide)

lemma isSomeAnd_none {α : Type} (p : α → Bool) :
    isSomeAnd (none : Option α) p = false := rfl

lemma isSomeAnd_some {α : Type} (p : α → Bool) (a : α) :
    isSomeAnd (some a) p = p a := rfl

lemma greater_or_equal_all_nil (w : V) :
    greater_or_equal_all ([] : List V) w = true := rfl

lemma greater_or_equal_any_nil (w : V) :
    greater_or_equal_any ([] : List V) w = false := rfl

/-- The empty history carrying a removal marker at 5, over natural-number
versions; claim C8 as stated fails on it. -/
def histEmptyRemoved : VersionHistory ℕ :=
  VersionHistory.mk [] [] none (some 5)

/-- Counterexample to claim C8 as stated: with no stable and no unstable
paths but removed = some 5, candidates [5] make select_endpoint fail with
EndpointRemoved, not NoUnstablePath. -/
theorem claim8_counterexample :
    histEmptyRemoved.stable_paths = [] ∧
    histEmptyRemoved.unstable_paths = [] ∧
    histEmptyRemoved.select_endpoint [5] =
      SelectResult.err IntoHttpError.EndpointRemoved ∧
    histEmptyRemoved.select_endpoint [5] ≠
      SelectResult.err IntoHttpError.NoUnstablePath := by
  decide

/-- Claim C8 amended: a history with no stable and no unstable paths
always fails, with EndpointRemoved when removed is set and every candidate
version reaches it, and with NoUnstablePath otherwise; the deprecated
field is irrelevant. -/
theorem claim8_empty_history_fails (h : VersionHistory V) (versions : List V)
    (h1 : h.stable_paths = []) (h2 : h.unstable_paths = []) :
    h.select_endpoint versions =
      (if isSomeAnd h.removed (greater_or_equal_all versions) then
        SelectResult.err IntoHttpError.EndpointRemoved
      else SelectResult.err IntoHttpError.NoUnstablePath) := by
  have ha : h.added_in = none := by
    simp [VersionHistory.added_in, h1]
  rcases hrem : isSomeAnd h.removed (greater_or_equal_all versions) with - | -
  · simp [VersionHistory.select_endpoint, VersionHistory.versioning_decision_for,
      hrem, ha, isSomeAnd_none, VersionHistory.unstable, h2]
  · simp [VersionHistory.select_endpoint, VersionHistory.versioning_decision_for,
      hrem]

/-- Witness for the amended claim C8: the empty history with removal
marker decides through the EndpointRemoved branch on [5]. -/
theorem claim8_witness :
    histEmptyRemoved.select_endpoint [5] =
      (if isSomeAnd histEmptyRemoved.removed (greater_or_equal_all [5]) then
        SelectResult.err IntoHttpError.EndpointRemoved
      else SelectResult.err IntoHttpError.NoUnstablePath) :=
  claim8_empty_history_fails histEmptyRemoved [5] rfl rfl

/-- Claim C9: on the empty candidate slice the decision is Removed exactly
when a removal marker is present and Unstable otherwise, never Stable, so
select_endpoint on the empty slice never yields a stable variant: it
yields EndpointRemoved, the last unstable variant, or NoUnstablePath. -/
theorem claim9_empty_candidates (h : VersionHistory V) :
    h.versioning_decision_for [] =
      (match h.removed with
        | some _ => VersioningDecision.Removed
        | none => VersioningDecision.Unstable) ∧
    (h.versioning_decision_for [] = VersioningDecision.Unstable ∨
      h.versioning_decision_for [] = VersioningDecision.Removed) ∧
    h.select_endpoint [] =
      (match h.removed with
        | some _ => SelectResult.err IntoHttpError.EndpointRemoved
        | none =>
          match h.unstable_paths.getLast? with
          | some m => SelectResult.ok m
          | none => SelectResult.err IntoHttpError.NoUnstablePath) := by
  rcases hrem : h.removed with - | r
  · have hst : isSomeAnd h.added_in (greater_or_equal_any []) = false := by
      cases h.added_in with
      | none => rfl
      | some a => simp [isSomeAnd_some, greater_or_equal_any_nil]
    have hd : h.versioning_decision_for [] = VersioningDecision.Unstable := by
      simp [VersionHistory.versioning_decision_for, hrem, isSomeAnd_none, hst]
    refine ⟨by simp [hd], Or.inl hd, ?_⟩
    rcases hu : h.unstable_paths.getLast? with - | m <;>
      simp [VersionHistory.select_endpoint, hd, VersionHistory.unstable, hu]
  · have hd : h.versioning_decision_for [] = VersioningDecision.Removed := by
      simp [VersionHistory.versioning_decision_for, hrem, isSomeAnd_some,
        greater_or_equal_all_nil]
    exact ⟨by simp [hd], Or.inr hd,
      by simp [VersionHistory.select_endpoint, hd]⟩

/-- The slash character, the suffix pattern of make_url. -/
def slash : Char := '/'

/-- Rust `str::strip_suffix` with the pattern '/', on a string viewed as
its character list (`Metadata::make_url`, metadata.rs line 21). -/
def strip_suffix_slash (s : List Char) : Option (List Char) :=
  match s.getLast? with
  | some c => if c = slash then some s.dropLast else none
  | none => none

/-- `base_url.strip_suffix('/').unwrap_or(base_url)`. -/
def stripped_base (s : List Char) : List Char :=
  (strip_suffix_slash s).getD s

/-- The opening brace character of a template placeholder. -/
def lbrace : Char := Char.ofNat 123

/-- The closing brace character of a template placeholder. -/
def rbrace : Char := Char.ofNat 125

/-- Look up a path argument by placeholder name. -/
def lookupArg (args : List (String × String)) (name : String) : Option String :=
  (args.find? (fun a => a.1 == name)).map Prod.snd

/-- Modelled from the spec: the template-rendering pass of the URL
Constructor collaborator (`construct_url` of src/url.rs, declared as
`mod url` in lib.rs but absent from the sources). Substitutes each
placeholder, written between braces, from the path arguments; an unfilled
placeholder is an error, and extra arguments are ignored. The second
argument carries the accumulated name characters while inside a
placeholder. -/
def render_aux (args : List (String × String)) :
    List Char → Option (List Char) → Except UrlError (List Char)
  | [] => fun st =>
    match st with
    | none => Except.ok []
    | some _ => Except.error UrlError.InvalidEndpoint
  | c :: rest => fun st =>
    match st with
    | none =>
      if c = lbrace then render_aux args rest (some [])
      else (render_aux args rest none).map (fun t => c :: t)
    | some acc =>
      if c = rbrace then
        match lookupArg args (String.mk acc.reverse) with
        | some v => (render_aux args rest none).map (fun t => v.data ++ t)
        | none => Except.error (UrlError.UnfilledField (String.mk acc.reverse))
      else render_aux args rest (some (c :: acc))

/-- The placeholder names occurring in a template, mirroring the traversal
of render_aux. -/
def template_names : List Char → Option (List Char) → List String
  | [] => fun _ => []
  | c :: rest => fun st =>
    match st with
    | none =>
      if c = lbrace then template_names rest (some [])
      else template_names rest none
    | some acc =>
      if c = rbrace then String.mk acc.reverse :: template_names rest none
      else template_names rest (some (c :: acc))

/-- Modelled from the spec: the query-string rendering of the URL
Constructor, appended after a question mark when non-empty. -/
def render_query (query : List (String × String)) : List Char :=
  match query with
  | [] => []
  | _ =>
    '?' ::
      (String.intercalate "&" (query.map (fun q => q.1 ++ "=" ++ q.2))).data

/-- Modelled from the spec: `construct_url` of the absent src/url.rs.
Renders the template with the path arguments, concatenates the result onto
the base, and appends the query string. -/
def construct_url (base : List Char) (template : String)
    (path_args query : List (String × String)) :
    Except UrlError (List Char) :=
  (render_aux path_args template.data none).map
    (fun t => base ++ t ++ render_query query)

/-- `Metadata::make_url` of metadata.rs, lines 15-28: strips one trailing
slash from the base URL, then delegates to the URL Constructor with the
path template of the variant; a constructor error is propagated, wrapped
into the Url variant exactly as the From conversion behind the
question-mark operator does. `Uri::try_from` belongs to the external http
crate and is modelled as the identity on the rendered URL. -/
def Metadata.make_url (m : Metadata) (base_url : List Char)
    (path_args query : List (String × String)) :
    Except IntoHttpError (List Char) :=
  match construct_url (stripped_base base_url) m.path path_args query with
  | Except.ok u => Except.ok u
  | Except.error e => Except.error (IntoHttpError.Url e)

lemma render_aux_ok_names (args : List (String × String)) :
    ∀ (s : List Char) (st : Option (List Char)) (t : List Char),
      render_aux args s st = Except.ok t →
      ∀ n ∈ template_names s st, ∃ v, lookupArg args n = some v := by
  intro s
  induction s with
  | nil =>
    intro st t hok n hn
    cases st <;> simp [template_names] at hn
  | cons c rest ih =>
    intro st t hok n hn
    cases st with
    | none =>
      simp only [render_aux, template_names] at hok hn
      by_cases hc : c = lbrace
      · rw [if_pos hc] at hok hn
        exact ih (some []) t hok n hn
      · rw [if_neg hc] at hok hn
        rcases hrec : render_aux args rest none with e | t2
        · rw [hrec] at hok
          simp [Except.map] at hok
        · exact ih none t2 hrec n hn
    | some acc =>
      simp only [render_aux, template_names] at hok hn
      by_cases hc : c = rbrace
      · rw [if_pos hc] at hok hn
        rcases hl : lookupArg args (String.mk acc.reverse) with - | v
        · rw [hl] at hok
          simp at hok
        · rw [hl] at hok
          rcases List.mem_cons.1 hn with rfl | hn2
          · exact ⟨v, hl⟩
          · rcases hrec : render_aux args rest none with e | t2
            · rw [hrec] at hok
              simp [Except.map] at hok
            · exact ih none t2 hrec n hn2
      · rw [if_neg hc] at hok hn
        exact ih (some (c :: acc)) t hok n hn

/-- Claim C10: make_url strips exactly one trailing slash from the base
URL (a base ending in two slashes keeps one), leaves it unchanged
otherwise, delegates to the URL Constructor with the path template of the
variant, propagates a constructor error unchanged, and a template that
renders successfully has every placeholder filled, so an unfilled
placeholder is rejected with an error. -/
theorem claim10_make_url_behavior (m : Metadata) (base : List Char)
    (path_args query : List (String × String)) :
    (∀ s : List Char, stripped_base (s ++ [slash]) = s) ∧
    (∀ s : List Char, s.getLast? ≠ some slash → stripped_base s = s) ∧
    (∀ s : List Char, stripped_base (s ++ [slash, slash]) = s ++ [slash]) ∧
    (∀ e, construct_url (stripped_base base) m.path path_args query =
        Except.error e →
      m.make_url base path_args query = Except.error (IntoHttpError.Url e)) ∧
    (∀ u, construct_url (stripped_base base) m.path path_args query =
        Except.ok u →
      m.make_url base path_args query = Except.ok u) ∧
    (∀ t, render_aux path_args m.path.data none = Except.ok t →
      ∀ n ∈ template_names m.path.data none,
        ∃ v, lookupArg path_args n = some v) := by
  refine ⟨?_, ?_, ?_, ?_, ?_, ?_⟩
  · intro s
    simp [stripped_base, strip_suffix_slash, List.getLast?_concat,
      List.dropLast_concat]
  · intro s hs
    rcases hgl : s.getLast? with - | c
    · simp [stripped_base, strip_suffix_slash, hgl]
    · have hc : ¬ c = slash := fun hcon => hs (by rw [hgl, hcon])
      simp [stripped_base, strip_suffix_slash, hgl, hc]
  · intro s
    have h2 : s ++ [slash, slash] = (s ++ [slash]) ++ [slash] := by simp
    rw [h2]
    simp [stripped_base, strip_suffix_slash, List.getLast?_concat,
      List.dropLast_concat]
  · intro e he
    simp [Metadata.make_url, he]
  · intro u hu
    simp [Metadata.make_url, hu]
  · exact fun t hok n hn => render_aux_ok_names path_args m.path.data none t hok n hn

/-- An endpoint shape whose template holds one placeholder named id. -/
def mTpl : Metadata :=
  Metadata.mk "GET" [] "/item/\x7bid\x7d" []

/-- Witness for claim C10: a base URL with a trailing slash is trimmed to
a slash-free base, and the rendered URL fills the placeholder. -/
theorem claim10_witness :
    stripped_base ("base".data) = "base".data ∧
    mTpl.make_url ("http://h/".data) [("id", "42")] [] =
      Except.ok ("http://h/item/42".data) :=
  ⟨(claim10_make_url_behavior mTpl ("http://h/".data) [("id", "42")] []).2.1
      ("base".data) (by decide),
    (claim10_make_url_behavior mTpl ("http://h/".data) [("id", "42")] []).2.2.2.2.1
      ("http://h/item/42".data) (by rfl)⟩

end ApiKit
